import Mathlib

/-!
A formal model of the DDPM diffusion core in `ddpm.py`: the noise schedule
(`Diffusion.beta`, `Diffusion.alpha`, `Diffusion.alpha_hat`), forward noising
(`noise_images`), timestep sampling (`sample_timesteps`) and reverse sampling
(`sample`).  Schedule scalars are modelled exactly as rational numbers; image
tensors carry real values, and the random draws the code consumes
(`torch.randn`, `torch.randint`) are passed in explicitly as inputs.
-/

namespace DDPM

/-- Model of `torch.linspace(a, b, steps)` in exact arithmetic: `steps` evenly
spaced values from `a` to `b` (for `steps = 1` the quotient degenerates to `0`
and the single value is `a`, as in torch). -/
def linspace (a b : ℚ) (steps : Nat) : List ℚ :=
  (List.range steps).map (fun (i : Nat) => a + (i : ℚ) * (b - a) / ((steps : ℚ) - 1))

/-- Helper for `cumprod`: running products with accumulator `acc`. -/
def cumprodAux (acc : ℚ) : List ℚ → List ℚ
  | [] => []
  | a :: as => (acc * a) :: cumprodAux (acc * a) as

/-- Model of `torch.cumprod(·, dim=0)`. -/
def cumprod (l : List ℚ) : List ℚ := cumprodAux 1 l

/-- The configuration fields stored by `Diffusion.__init__` in `ddpm.py`,
in their parameter order. -/
structure Diffusion where
  noise_steps : Nat
  beta_start : ℚ
  beta_end : ℚ
  img_size : Nat
  device : String

/-- `Diffusion.prepare_noise_schedule`:
`torch.linspace(self.beta_start, self.beta_end, self.noise_steps)`. -/
def Diffusion.prepare_noise_schedule (D : Diffusion) : List ℚ :=
  linspace D.beta_start D.beta_end D.noise_steps

/-- `self.beta`, as set in `__init__`. -/
def Diffusion.beta (D : Diffusion) : List ℚ := D.prepare_noise_schedule

/-- `self.alpha = 1 - self.beta` (elementwise). -/
def Diffusion.alpha (D : Diffusion) : List ℚ := D.beta.map (fun b => 1 - b)

/-- `self.alpha_hat = torch.cumprod(self.alpha, dim=0)`. -/
def Diffusion.alpha_hat (D : Diffusion) : List ℚ := cumprod D.alpha

/-- Indexing a length-`L` torch vector by an integer: indices in `[0, L)` are
used directly, indices in `[-L, 0)` wrap (Python negative indexing), anything
else is an index error (`none`). -/
def tindex (l : List ℚ) (i : ℤ) : Option ℚ :=
  if 0 ≤ i then l[i.toNat]?
  else if 0 ≤ i + l.length then l[(i + l.length).toNat]?
  else none

/-- `beta[t]` at a natural index (defaulting to 0 out of range; every use
below is in range). -/
def betaAt (D : Diffusion) (t : Nat) : ℚ := (D.beta[t]?).getD 0

/-- `alpha[t]` at a natural index. -/
def alphaAt (D : Diffusion) (t : Nat) : ℚ := (D.alpha[t]?).getD 0

/-- `alpha_hat[t]` at a natural index. -/
def alphaHatAt (D : Diffusion) (t : Nat) : ℚ := (D.alpha_hat[t]?).getD 0

/-- `sample_timesteps(n) = torch.randint(low=1, high=self.noise_steps, size=(n,))`.
The raw random draws are the input stream `u`; draw `u i` is reduced into the
half-open integer range `[1, noise_steps)`, the semantics of `randint`. -/
def Diffusion.sample_timesteps (D : Diffusion) (n : Nat) (u : Nat → Nat) : List ℤ :=
  (List.range n).map (fun i => 1 + ((u i % (D.noise_steps - 1) : Nat) : ℤ))

section ScheduleLemmas

lemma length_linspace (a b : ℚ) (steps : Nat) : (linspace a b steps).length = steps := by
  rw [linspace, List.length_map, List.length_range]

lemma getElem?_linspace (a b : ℚ) {steps i : Nat} (h : i < steps) :
    (linspace a b steps)[i]? = some (a + (i : ℚ) * (b - a) / ((steps : ℚ) - 1)) := by
  rw [linspace, List.getElem?_map, List.getElem?_range h, Option.map_some']

lemma length_cumprodAux (acc : ℚ) (l : List ℚ) :
    (cumprodAux acc l).length = l.length := by
  induction l generalizing acc with
  | nil => rfl
  | cons a as ih => simp [cumprodAux, ih]

lemma getElem?_cumprodAux (acc : ℚ) (l : List ℚ) (t : Nat) (h : t < l.length) :
    (cumprodAux acc l)[t]? = some (acc * (l.take (t + 1)).prod) := by
  induction l generalizing acc t with
  | nil => simp at h
  | cons a as ih =>
    cases t with
    | zero => simp [cumprodAux]
    | succ t =>
      have ht : t < as.length := by simpa using h
      rw [cumprodAux, List.getElem?_cons_succ, ih (acc * a) t ht]
      simp only [List.take_succ_cons, List.prod_cons, Option.some.injEq]
      ring

lemma beta_length (D : Diffusion) : D.beta.length = D.noise_steps := by
  rw [Diffusion.beta, Diffusion.prepare_noise_schedule, length_linspace]

lemma alpha_length (D : Diffusion) : D.alpha.length = D.noise_steps := by
  rw [Diffusion.alpha, List.length_map, beta_length]

lemma alpha_hat_length (D : Diffusion) : D.alpha_hat.length = D.noise_steps := by
  rw [Diffusion.alpha_hat, cumprod, length_cumprodAux, alpha_length]

lemma betaAt_eq (D : Diffusion) {t : Nat} (h : t < D.noise_steps) :
    betaAt D t =
      D.beta_start + (t : ℚ) * (D.beta_end - D.beta_start) / ((D.noise_steps : ℚ) - 1) := by
  rw [betaAt, Diffusion.beta, Diffusion.prepare_noise_schedule, getElem?_linspace _ _ h,
    Option.getD_some]

lemma alphaAt_eq (D : Diffusion) {t : Nat} (h : t < D.noise_steps) :
    alphaAt D t = 1 - betaAt D t := by
  have hb : t < D.beta.length := by rw [beta_length]; exact h
  rw [alphaAt, Diffusion.alpha, List.getElem?_map, List.getElem?_eq_getElem hb,
    betaAt, List.getElem?_eq_getElem hb, Option.map_some', Option.getD_some, Option.getD_some]

lemma alphaHatAt_eq (D : Diffusion) {t : Nat} (h : t < D.noise_steps) :
    alphaHatAt D t = (D.alpha.take (t + 1)).prod := by
  have ha : t < D.alpha.length := by rw [alpha_length]; exact h
  rw [alphaHatAt, Diffusion.alpha_hat, cumprod, getElem?_cumprodAux 1 _ _ ha,
    Option.getD_some, one_mul]

lemma alpha_take_prod_succ (D : Diffusion) {t : Nat} (h : t < D.noise_steps) :
    (D.alpha.take (t + 1)).prod = (D.alpha.take t).prod * alphaAt D t := by
  have ha : t < D.alpha.length := by rw [alpha_length]; exact h
  rw [List.prod_take_succ D.alpha t ha]
  congr 1
  rw [alphaAt, List.getElem?_eq_getElem ha, Option.getD_some]

lemma betaAt_zero (D : Diffusion) (h : 0 < D.noise_steps) :
    betaAt D 0 = D.beta_start := by
  rw [betaAt_eq D h]
  simp

lemma betaAt_last (D : Diffusion) (h : 2 ≤ D.noise_steps) :
    betaAt D (D.noise_steps - 1) = D.beta_end := by
  have h1 : D.noise_steps - 1 < D.noise_steps := by omega
  rw [betaAt_eq D h1]
  have h1' : (1 : Nat) ≤ D.noise_steps := by omega
  rw [Nat.cast_sub h1', Nat.cast_one]
  have hcast : (2 : ℚ) ≤ (D.noise_steps : ℚ) := by exact_mod_cast h
  have hm : ((D.noise_steps : ℚ) - 1) ≠ 0 := by linarith
  rw [mul_div_cancel_left₀ _ hm]
  ring

end ScheduleLemmas

/-- C4: for every construction with `2 ≤ stepCount`, the three derived
sequences have length `stepCount`; `beta` is the linear interpolation from
`betaStart` (index 0) to `betaEnd` (index `stepCount - 1`);
`alpha[t] = 1 - beta[t]`; and `alphaHat[t]` is the product of `alpha[0..t]`. -/
theorem schedule_construction_spec (ns sz : Nat) (bs be : ℚ) (dev : String)
    (h : 2 ≤ ns) :
    (Diffusion.mk ns bs be sz dev).beta.length = ns ∧
    (Diffusion.mk ns bs be sz dev).alpha.length = ns ∧
    (Diffusion.mk ns bs be sz dev).alpha_hat.length = ns ∧
    betaAt (Diffusion.mk ns bs be sz dev) 0 = bs ∧
    betaAt (Diffusion.mk ns bs be sz dev) (ns - 1) = be ∧
    (∀ t, t < ns →
      betaAt (Diffusion.mk ns bs be sz dev) t = bs + (t : ℚ) * (be - bs) / ((ns : ℚ) - 1)) ∧
    (∀ t, t < ns →
      alphaAt (Diffusion.mk ns bs be sz dev) t = 1 - betaAt (Diffusion.mk ns bs be sz dev) t) ∧
    (∀ t, t < ns →
      alphaHatAt (Diffusion.mk ns bs be sz dev) t =
        ((Diffusion.mk ns bs be sz dev).alpha.take (t + 1)).prod) := by
  refine ⟨beta_length _, alpha_length _, alpha_hat_length _,
    betaAt_zero _ (by show 0 < ns; omega),
    betaAt_last _ (by show 2 ≤ ns; exact h),
    fun t ht => betaAt_eq _ ht, fun t ht => alphaAt_eq _ ht,
    fun t ht => alphaHatAt_eq _ ht⟩

/-- Witness for C4 at `stepCount = 4`, `betaStart = 1/10`, `betaEnd = 1/5`. -/
theorem schedule_construction_spec_witness :
    2 ≤ 4 ∧
    ((Diffusion.mk 4 (1/10) (1/5) 64 "cpu").beta.length = 4 ∧
     (Diffusion.mk 4 (1/10) (1/5) 64 "cpu").alpha.length = 4 ∧
     (Diffusion.mk 4 (1/10) (1/5) 64 "cpu").alpha_hat.length = 4 ∧
     betaAt (Diffusion.mk 4 (1/10) (1/5) 64 "cpu") 0 = 1/10 ∧
     betaAt (Diffusion.mk 4 (1/10) (1/5) 64 "cpu") (4 - 1) = 1/5 ∧
     (∀ t, t < 4 →
       betaAt (Diffusion.mk 4 (1/10) (1/5) 64 "cpu") t =
         1/10 + (t : ℚ) * (1/5 - 1/10) / ((4 : ℚ) - 1)) ∧
     (∀ t, t < 4 →
       alphaAt (Diffusion.mk 4 (1/10) (1/5) 64 "cpu") t =
         1 - betaAt (Diffusion.mk 4 (1/10) (1/5) 64 "cpu") t) ∧
     (∀ t, t < 4 →
       alphaHatAt (Diffusion.mk 4 (1/10) (1/5) 64 "cpu") t =
         ((Diffusion.mk 4 (1/10) (1/5) 64 "cpu").alpha.take (t + 1)).prod)) :=
  ⟨by decide, schedule_construction_spec 4 64 (1/10) (1/5) "cpu" (by decide)⟩

section InvariantLemmas

lemma betaAt_bounds (D : Diffusion) (h2 : 2 ≤ D.noise_steps) (h0 : 0 < D.beta_start)
    (hlt : D.beta_start < D.beta_end) {t : Nat} (ht : t < D.noise_steps) :
    0 < betaAt D t ∧ betaAt D t ≤ D.beta_end := by
  rw [betaAt_eq D ht]
  have hcast : (2 : ℚ) ≤ (D.noise_steps : ℚ) := by exact_mod_cast h2
  have hm : (0 : ℚ) < (D.noise_steps : ℚ) - 1 := by linarith
  have htc : (t : ℚ) ≤ (D.noise_steps : ℚ) - 1 := by
    have : (t : ℚ) + 1 ≤ (D.noise_steps : ℚ) := by exact_mod_cast ht
    linarith
  have hnum : (0 : ℚ) ≤ (t : ℚ) * (D.beta_end - D.beta_start) :=
    mul_nonneg (by positivity) (by linarith)
  constructor
  · have : (0 : ℚ) ≤ (t : ℚ) * (D.beta_end - D.beta_start) / ((D.noise_steps : ℚ) - 1) :=
      div_nonneg hnum (le_of_lt hm)
    linarith
  · have h1 : (t : ℚ) * (D.beta_end - D.beta_start) ≤
        ((D.noise_steps : ℚ) - 1) * (D.beta_end - D.beta_start) := by nlinarith
    have h2' := (div_le_div_right hm).mpr h1
    rw [mul_div_cancel_left₀ _ (ne_of_gt hm)] at h2'
    linarith

lemma alphaAt_bounds (D : Diffusion) (h2 : 2 ≤ D.noise_steps) (h0 : 0 < D.beta_start)
    (hlt : D.beta_start < D.beta_end) (h1 : D.beta_end < 1) {t : Nat}
    (ht : t < D.noise_steps) : 0 < alphaAt D t ∧ alphaAt D t < 1 := by
  obtain ⟨hbl, hbu⟩ := betaAt_bounds D h2 h0 hlt ht
  rw [alphaAt_eq D ht]
  constructor <;> linarith

lemma alphaHatAt_zero (D : Diffusion) (h : 0 < D.noise_steps) :
    alphaHatAt D 0 = alphaAt D 0 := by
  rw [alphaHatAt_eq D h, alpha_take_prod_succ D h]
  simp

lemma alphaHatAt_succ (D : Diffusion) {t : Nat} (h : t + 1 < D.noise_steps) :
    alphaHatAt D (t + 1) = alphaHatAt D t * alphaAt D (t + 1) := by
  rw [alphaHatAt_eq D h, alpha_take_prod_succ D h,
    ← alphaHatAt_eq D (lt_trans (Nat.lt_succ_self t) h)]

lemma alphaHatAt_pos_le_one (D : Diffusion) (h2 : 2 ≤ D.noise_steps)
    (h0 : 0 < D.beta_start) (hlt : D.beta_start < D.beta_end) (h1 : D.beta_end < 1) :
    ∀ t, t < D.noise_steps → 0 < alphaHatAt D t ∧ alphaHatAt D t ≤ 1 := by
  intro t
  induction t with
  | zero =>
    intro ht
    obtain ⟨ha0, ha1⟩ := alphaAt_bounds D h2 h0 hlt h1 ht
    rw [alphaHatAt_zero D ht]
    exact ⟨ha0, le_of_lt ha1⟩
  | succ t ih =>
    intro ht
    obtain ⟨ihp, ihle⟩ := ih (by omega)
    obtain ⟨ha0, ha1⟩ := alphaAt_bounds D h2 h0 hlt h1 ht
    rw [alphaHatAt_succ D ht]
    constructor
    · exact mul_pos ihp ha0
    · calc alphaHatAt D t * alphaAt D (t + 1) ≤ 1 * 1 :=
            mul_le_mul ihle (le_of_lt ha1) (le_of_lt ha0) zero_le_one
        _ = 1 := mul_one 1

lemma alphaHat_chain (D : Diffusion) (h2 : 2 ≤ D.noise_steps) (h0 : 0 < D.beta_start)
    (hlt : D.beta_start < D.beta_end) (h1 : D.beta_end < 1) :
    alphaHatAt D 0 = alphaAt D 0 ∧
    ∀ t, 1 ≤ t → t < D.noise_steps →
      0 < alphaHatAt D t ∧ alphaHatAt D t < alphaHatAt D (t - 1) ∧
      alphaHatAt D (t - 1) ≤ 1 := by
  refine ⟨alphaHatAt_zero D (by omega), ?_⟩
  intro t ht1 htn
  obtain ⟨s, rfl⟩ : ∃ s, t = s + 1 := ⟨t - 1, by omega⟩
  obtain ⟨hsp, hsle⟩ := alphaHatAt_pos_le_one D h2 h0 hlt h1 s (by omega)
  obtain ⟨ha0, ha1⟩ := alphaAt_bounds D h2 h0 hlt h1 htn
  rw [alphaHatAt_succ D htn, Nat.add_sub_cancel]
  exact ⟨mul_pos hsp ha0, mul_lt_of_lt_one_right hsp ha1, hsle⟩

end InvariantLemmas

/-- C5: for every schedule built from valid parameters (`2 ≤ stepCount`,
`0 < betaStart < betaEnd < 1`) the cumulative product satisfies
`0 < alphaHat[t] < alphaHat[t-1] ≤ 1` for every `t ≥ 1`, and
`alphaHat[0] = alpha[0]`.  (The schedule is a pure function of the
construction parameters, so nothing can mutate it.) -/
theorem alphaHat_strict_decreasing (ns sz : Nat) (bs be : ℚ) (dev : String)
    (h2 : 2 ≤ ns) (h0 : 0 < bs) (hlt : bs < be) (h1 : be < 1) :
    alphaHatAt (Diffusion.mk ns bs be sz dev) 0 = alphaAt (Diffusion.mk ns bs be sz dev) 0 ∧
    ∀ t, 1 ≤ t → t < ns →
      0 < alphaHatAt (Diffusion.mk ns bs be sz dev) t ∧
      alphaHatAt (Diffusion.mk ns bs be sz dev) t <
        alphaHatAt (Diffusion.mk ns bs be sz dev) (t - 1) ∧
      alphaHatAt (Diffusion.mk ns bs be sz dev) (t - 1) ≤ 1 :=
  alphaHat_chain (Diffusion.mk ns bs be sz dev) h2 h0 hlt h1

/-- Witness for C5 at `stepCount = 4`, `betaStart = 1/10`, `betaEnd = 1/5`. -/
theorem alphaHat_strict_decreasing_witness :
    (2 ≤ 4 ∧ (0 : ℚ) < 1/10 ∧ (1/10 : ℚ) < 1/5 ∧ (1/5 : ℚ) < 1) ∧
    (alphaHatAt (Diffusion.mk 4 (1/10) (1/5) 64 "cpu") 0 =
      alphaAt (Diffusion.mk 4 (1/10) (1/5) 64 "cpu") 0 ∧
    ∀ t, 1 ≤ t → t < 4 →
      0 < alphaHatAt (Diffusion.mk 4 (1/10) (1/5) 64 "cpu") t ∧
      alphaHatAt (Diffusion.mk 4 (1/10) (1/5) 64 "cpu") t <
        alphaHatAt (Diffusion.mk 4 (1/10) (1/5) 64 "cpu") (t - 1) ∧
      alphaHatAt (Diffusion.mk 4 (1/10) (1/5) 64 "cpu") (t - 1) ≤ 1) :=
  ⟨⟨by norm_num, by norm_num, by norm_num, by norm_num⟩,
    alphaHat_strict_decreasing 4 64 (1/10) (1/5) "cpu"
      (by norm_num) (by norm_num) (by norm_num) (by norm_num)⟩

/-- C8 counterexample: `Diffusion.__init__` performs no validation, so
construction with out-of-order bounds (`betaStart = 1/2 > 1/4 = betaEnd`)
succeeds and silently returns a decreasing beta schedule instead of failing. -/
theorem construction_accepts_invalid_params :
    (Diffusion.mk 4 (1/2) (1/4) 64 "cpu").beta.length = 4 ∧
    betaAt (Diffusion.mk 4 (1/2) (1/4) 64 "cpu") 0 = 1/2 ∧
    betaAt (Diffusion.mk 4 (1/2) (1/4) 64 "cpu") 3 = 1/4 ∧
    betaAt (Diffusion.mk 4 (1/2) (1/4) 64 "cpu") 3 <
      betaAt (Diffusion.mk 4 (1/2) (1/4) 64 "cpu") 0 := by
  have e0 := betaAt_eq (Diffusion.mk 4 (1/2) (1/4) 64 "cpu") (show 0 < 4 by omega)
  have e3 := betaAt_eq (Diffusion.mk 4 (1/2) (1/4) 64 "cpu") (show 3 < 4 by omega)
  have v0 : betaAt (Diffusion.mk 4 (1/2) (1/4) 64 "cpu") 0 = 1/2 := by
    rw [e0]; norm_num
  have v3 : betaAt (Diffusion.mk 4 (1/2) (1/4) 64 "cpu") 3 = 1/4 := by
    rw [e3]; norm_num
  exact ⟨beta_length _, v0, v3, by rw [v0, v3]; norm_num⟩

/-- C8 amended: construction never fails; for any parameters whatsoever it
returns a `Diffusion` whose three derived sequences have length `stepCount`
(even for `stepCount < 2`, `betaStart ≥ betaEnd` or bounds outside `(0,1)`,
where the schedule is silently wrong rather than rejected). -/
theorem construction_total (ns sz : Nat) (bs be : ℚ) (dev : String) :
    (Diffusion.mk ns bs be sz dev).beta.length = ns ∧
    (Diffusion.mk ns bs be sz dev).alpha.length = ns ∧
    (Diffusion.mk ns bs be sz dev).alpha_hat.length = ns :=
  ⟨beta_length _, alpha_length _, alpha_hat_length _⟩

/-- C10: `sample_timesteps(n)` returns exactly `n` integers, each in
`[1, stepCount)`, and the result depends only on `n`, `stepCount` and the
raw random draws (no retained state). -/
theorem sample_timesteps_spec (D : Diffusion) (n : Nat) (u : Nat → Nat)
    (h : 2 ≤ D.noise_steps) :
    (D.sample_timesteps n u).length = n ∧
    (∀ v ∈ D.sample_timesteps n u, 1 ≤ v ∧ v < (D.noise_steps : ℤ)) ∧
    (∀ E : Diffusion, E.noise_steps = D.noise_steps →
      E.sample_timesteps n u = D.sample_timesteps n u) := by
  refine ⟨by rw [Diffusion.sample_timesteps, List.length_map, List.length_range], ?_, ?_⟩
  · intro v hv
    rw [Diffusion.sample_timesteps, List.mem_map] at hv
    obtain ⟨i, _, rfl⟩ := hv
    have hmod : u i % (D.noise_steps - 1) < D.noise_steps - 1 :=
      Nat.mod_lt _ (by omega)
    constructor
    · omega
    · omega
  · intro E hE
    rw [Diffusion.sample_timesteps, Diffusion.sample_timesteps, hE]

/-- Witness for C10 at `stepCount = 5`, `n = 3`, raw draws `u i = i`. -/
theorem sample_timesteps_spec_witness :
    2 ≤ (Diffusion.mk 5 (1/10) (1/5) 64 "cpu").noise_steps ∧
    (((Diffusion.mk 5 (1/10) (1/5) 64 "cpu").sample_timesteps 3 (fun i => i)).length = 3 ∧
    (∀ v ∈ (Diffusion.mk 5 (1/10) (1/5) 64 "cpu").sample_timesteps 3 (fun i => i),
      1 ≤ v ∧ v < ((Diffusion.mk 5 (1/10) (1/5) 64 "cpu").noise_steps : ℤ)) ∧
    (∀ E : Diffusion, E.noise_steps = (Diffusion.mk 5 (1/10) (1/5) 64 "cpu").noise_steps →
      E.sample_timesteps 3 (fun i => i) =
        (Diffusion.mk 5 (1/10) (1/5) 64 "cpu").sample_timesteps 3 (fun i => i))) :=
  ⟨by decide, sample_timesteps_spec (Diffusion.mk 5 (1/10) (1/5) 64 "cpu") 3
    (fun i => i) (by decide)⟩

/-! ## Image tensors, the forward noising pass and the reverse sampler -/

/-- Pixel index of an `n × 3 × s × s` image batch
(image, channel, row, column). -/
def Ix (n s : Nat) := Fin n × Fin 3 × Fin s × Fin s

/-- A real-valued image batch of shape `n × 3 × s × s`. -/
def Tensor (n s : Nat) := Ix n s → ℝ

/-- A predictor's train/eval mode, toggled by `model.train()` / `model.eval()`. -/
inductive Mode
  | train
  | eval
deriving DecidableEq

/-- The external noise predictor: an opaque callable `(images, timesteps) ↦
images` together with its mode bit. -/
structure Model (n s : Nat) where
  predict : Tensor n s → (Fin n → ℤ) → Tensor n s
  mode : Mode

/-- `l[i]` with integer torch indexing, total (`0` out of bounds; every use in
`sample` is in range). -/
def schedIdx (l : List ℚ) (i : ℤ) : ℚ := (tindex l i).getD 0

/-- `Diffusion.noise_images(x, t)` as the source writes it:
`sqrt(alpha_hat[t]) * x * sqrt(1 - alpha_hat[t]) * epsilon` — all four factors
multiplied — returning the pair `(noisy, epsilon)`.  The standard-normal draw
`epsilon = torch.randn_like(x)` is the explicit input `eps`; `none` models the
IndexError raised when an entry of `t` is outside the tensor bounds. -/
noncomputable def noise_images (D : Diffusion) {n s : Nat} (x eps : Tensor n s)
    (t : Fin n → ℤ) : Option (Tensor n s × Tensor n s) :=
  if h : ∀ i : Fin n, (tindex D.alpha_hat (t i)).isSome then
    some (fun p =>
      Real.sqrt (((tindex D.alpha_hat (t p.1)).get (h p.1) : ℚ) : ℝ) * x p *
        Real.sqrt (1 - (((tindex D.alpha_hat (t p.1)).get (h p.1) : ℚ) : ℝ)) * eps p,
      eps)
  else none

/-- The forward formula as the spec states it — the additive DDPM closed form
`sqrt(alphaHat[t]) * x + sqrt(1 - alphaHat[t]) * eps` — written from the
spec's words for comparison against the source's `noise_images`. -/
noncomputable def specAdditiveNoisy (D : Diffusion) {n s : Nat} (x eps : Tensor n s)
    (t : Fin n → ℤ) : Tensor n s :=
  fun p => Real.sqrt ((schedIdx D.alpha_hat (t p.1) : ℝ)) * x p +
    Real.sqrt (1 - (schedIdx D.alpha_hat (t p.1) : ℝ)) * eps p

/-- `t = (torch.ones(n) * i).long()`: the length-`n` constant timestep batch. -/
def tvec (n : Nat) (i : Nat) : Fin n → ℤ := fun _ => (i : ℤ)

/-- One iteration of the reverse loop of `Diffusion.sample` at counter `i`:
build the constant timestep batch, call the predictor, broadcast `alpha[t]`,
`alpha_hat[t]`, `beta[t]` per image, draw `z` (`torch.randn` for `i > 1`,
`torch.zeros` at `i == 1`), and apply the update of line 59 of `ddpm.py`. -/
noncomputable def sampleStep (D : Diffusion) {n : Nat} (M : Model n D.img_size)
    (zs : Nat → Tensor n D.img_size) (x : Tensor n D.img_size) (i : Nat) :
    Tensor n D.img_size :=
  fun p =>
    1 / Real.sqrt ((schedIdx D.alpha (tvec n i p.1) : ℝ)) *
      (x p - (1 - (schedIdx D.alpha (tvec n i p.1) : ℝ)) /
        Real.sqrt (1 - (schedIdx D.alpha_hat (tvec n i p.1) : ℝ)) *
        M.predict x (tvec n i) p) +
    Real.sqrt ((schedIdx D.beta (tvec n i p.1) : ℝ)) *
      (if 1 < i then zs i p else 0)

/-- The reverse loop driven by a list of counters, also recording the
timestep batch passed to the predictor at each iteration. -/
noncomputable def sampleLoop (D : Diffusion) {n : Nat} (M : Model n D.img_size)
    (zs : Nat → Tensor n D.img_size) :
    List Nat → Tensor n D.img_size × List (Fin n → ℤ) →
      Tensor n D.img_size × List (Fin n → ℤ)
  | [], st => st
  | i :: is, st => sampleLoop D M zs is (sampleStep D M zs st.1 i, st.2 ++ [tvec n i])

/-- `reversed(range(1, noise_steps))`: the counters `noise_steps - 1, ..., 1`. -/
def revRange (T : Nat) : List Nat := (List.range' 1 (T - 1)).reverse

/-- The loop state after the full reverse loop of `sample`, before
post-processing; `x0` is the initial `torch.randn` draw and `zs i` the
per-step `torch.randn` draw. -/
noncomputable def sampleRaw (D : Diffusion) {n : Nat} (M : Model n D.img_size)
    (zs : Nat → Tensor n D.img_size) (x0 : Tensor n D.img_size) :
    Tensor n D.img_size :=
  (sampleLoop D M zs (revRange D.noise_steps) (x0, [])).1

/-- The sequence of timestep batches passed to the predictor by `sample`. -/
noncomputable def sampleCalls (D : Diffusion) {n : Nat} (M : Model n D.img_size)
    (zs : Nat → Tensor n D.img_size) (x0 : Tensor n D.img_size) :
    List (Fin n → ℤ) :=
  (sampleLoop D M zs (revRange D.noise_steps) (x0, [])).2

/-- `v.clamp(lo, hi)`. -/
noncomputable def clamp (lo hi v : ℝ) : ℝ := max lo (min v hi)

/-- The float-to-uint8 conversion `.type(torch.uint8)`: truncation toward
zero (all values converted in `sample` lie in `[0, 255]`). -/
noncomputable def truncToZero (v : ℝ) : ℤ := if 0 ≤ v then ⌊v⌋ else -⌊-v⌋

/-- Lines 63-64 of `ddpm.py`:
`x = (x.clamp(-1, 1) + 1)/2; x = (x * 255).type(torch.uint8)`. -/
noncomputable def postprocess {n s : Nat} (x : Tensor n s) : Ix n s → ℤ :=
  fun p => truncToZero ((clamp (-1) 1 (x p) + 1) / 2 * 255)

/-- The post-processing as the claim states it — `round(x * 255)` — written
from the spec's words for comparison with `postprocess`. -/
noncomputable def specRoundPost {n s : Nat} (x : Tensor n s) : Ix n s → ℤ :=
  fun p => round ((clamp (-1) 1 (x p) + 1) / 2 * 255)

/-- `Diffusion.sample(model, n)`: `model.eval()`, the reverse loop over
`reversed(range(1, noise_steps))`, then `model.train()` and post-processing.
Mutation is modelled by state passing: the result carries the byte images,
the diffusion object as `sample` leaves it, and the predictor with the mode
it holds when `sample` returns. -/
noncomputable def Diffusion.sample (D : Diffusion) {n : Nat} (M : Model n D.img_size)
    (zs : Nat → Tensor n D.img_size) (x0 : Tensor n D.img_size) :
    (Ix n D.img_size → ℤ) × Diffusion × Model n D.img_size :=
  (postprocess (sampleRaw D M zs x0), D, { M with mode := Mode.train })

/-! ## Concrete instances for counterexamples and witnesses -/

/-- A 2-step schedule `Diffusion(noise_steps=2, beta_start=1/4, beta_end=1/2,
img_size=1)` used for concrete evaluations. -/
def D2 : Diffusion := Diffusion.mk 2 (1/4) (1/2) 1 "cpu"

/-- A 3-step schedule used for concrete evaluations. -/
def D3 : Diffusion := Diffusion.mk 3 (1/4) (1/2) 1 "cpu"

/-- The all-zero `1 × 3 × 1 × 1` batch. -/
def zeroT : Tensor 1 1 := fun _ => 0

/-- The all-one `1 × 3 × 1 × 1` batch. -/
def xOne : Tensor 1 1 := fun _ => 1

/-- An all-zero noise stream. -/
def zsZero : Nat → Tensor 1 1 := fun _ => zeroT

/-- The zero predictor in training mode. -/
def Mzero : Model 1 1 := ⟨fun _ _ _ => 0, Mode.train⟩

/-- The zero predictor in evaluation mode. -/
def Meval : Model 1 1 := ⟨fun _ _ _ => 0, Mode.eval⟩

/-- The pixel (image 0, channel 0, row 0, column 0). -/
def p0 : Ix 1 1 := ⟨0, 0, 0, 0⟩

section TensorLemmas

lemma schedIdx_natCast (l : List ℚ) (i : Nat) :
    schedIdx l (i : ℤ) = (l[i]?).getD 0 := by
  rw [schedIdx, tindex, if_pos (Int.natCast_nonneg i), Int.toNat_natCast]

lemma isSome_getElem (l : List ℚ) (k : Nat) : (l[k]?).isSome = true ↔ k < l.length := by
  constructor
  · intro hs
    obtain ⟨a, ha⟩ := Option.isSome_iff_exists.mp hs
    obtain ⟨hk, _⟩ := List.getElem?_eq_some_iff.mp ha
    exact hk
  · intro hk
    rw [List.getElem?_eq_getElem hk]
    rfl

lemma tindex_isSome (l : List ℚ) (i : ℤ) :
    (tindex l i).isSome = true ↔ -(l.length : ℤ) ≤ i ∧ i < (l.length : ℤ) := by
  rw [tindex]
  by_cases h0 : (0 : ℤ) ≤ i
  · rw [if_pos h0, isSome_getElem]
    omega
  · rw [if_neg h0]
    by_cases h1 : (0 : ℤ) ≤ i + l.length
    · rw [if_pos h1, isSome_getElem]
      omega
    · rw [if_neg h1]
      simp only [Option.isSome_none, Bool.false_eq_true, false_iff]
      omega

lemma beta_D2 : D2.beta = [1/4, 1/2] := by
  rw [show D2.beta = linspace (1/4) (1/2) 2 from rfl, linspace,
    show List.range 2 = [0, 1] from rfl]
  norm_num

lemma alpha_D2 : D2.alpha = [3/4, 1/2] := by
  rw [Diffusion.alpha, beta_D2]
  norm_num

lemma alpha_hat_D2 : D2.alpha_hat = [3/4, 3/8] := by
  rw [Diffusion.alpha_hat, alpha_D2, cumprod, cumprodAux, cumprodAux, cumprodAux]
  norm_num

end TensorLemmas

/-- C7 amended: `noise_images` raises an index error exactly when some entry
of the timestep batch lies outside the tensor bounds `[-stepCount, stepCount)`
(negative entries in range wrap, per Python indexing); every batch inside
those bounds — timestep `0` and in-range negative timesteps included — is
silently accepted, not rejected as being outside `[1, stepCount)`. -/
theorem noise_images_error_iff_tensor_bounds (D : Diffusion) {n s : Nat}
    (x eps : Tensor n s) (t : Fin n → ℤ) :
    (noise_images D x eps t).isSome = true ↔
      ∀ i : Fin n, -(D.noise_steps : ℤ) ≤ t i ∧ t i < (D.noise_steps : ℤ) := by
  unfold noise_images
  split
  · rename_i h
    simp only [Option.isSome_some, true_iff]
    intro i
    have hi := h i
    rw [tindex_isSome, alpha_hat_length] at hi
    exact hi
  · rename_i h
    simp only [Option.isSome_none, Bool.false_eq_true, false_iff]
    intro hc
    exact h fun i => (tindex_isSome _ _).mpr (by rw [alpha_hat_length]; exact hc i)

/-- C7 counterexample: timestep `0` lies outside `[1, stepCount)`, so the
claim demands a domain error, but `noise_images` evaluates it without error
(it simply reads `alpha_hat[0]`). -/
theorem noise_images_accepts_timestep_zero :
    (noise_images D2 xOne zeroT (fun _ => 0)).isSome = true := by
  have hg : ∀ i : Fin 1, (tindex D2.alpha_hat ((fun _ => (0 : ℤ)) i)).isSome := by
    intro i
    rw [tindex_isSome, alpha_hat_length]
    show -((2 : Nat) : ℤ) ≤ 0 ∧ (0 : ℤ) < ((2 : Nat) : ℤ)
    omega
  unfold noise_images
  rw [dif_pos hg]
  rfl

/-- C1 (source defect): at `stepCount = 2`, `betaStart = 1/4`, `betaEnd = 1/2`,
`x ≡ 1`, `eps ≡ 0`, `t = [1]`, the source's `noise_images` — which multiplies
all four factors `sqrt(alphaHat[t]) * x * sqrt(1 - alphaHat[t]) * eps` —
returns pixel value `0`, while the additive DDPM formula the claim (and the
code's own reverse sampler and training loss) assumes gives
`sqrt(alphaHat[1]) = sqrt(3/8) ≠ 0`. -/
theorem noise_images_multiplicative_defect :
    Option.map (fun pr => pr.1 p0) (noise_images D2 xOne zeroT (fun _ => 1)) = some 0 ∧
    specAdditiveNoisy D2 xOne zeroT (fun _ => 1) p0 ≠ 0 := by
  have hg : ∀ i : Fin 1, (tindex D2.alpha_hat ((fun _ => (1 : ℤ)) i)).isSome := by
    intro i
    rw [tindex_isSome, alpha_hat_length]
    show -((2 : Nat) : ℤ) ≤ 1 ∧ (1 : ℤ) < ((2 : Nat) : ℤ)
    omega
  have hval : schedIdx D2.alpha_hat (1 : ℤ) = 3/8 := by
    rw [show (1 : ℤ) = ((1 : Nat) : ℤ) from rfl, schedIdx_natCast, alpha_hat_D2]
    rfl
  constructor
  · unfold noise_images
    rw [dif_pos hg, Option.map_some']
    congr 1
    show Real.sqrt _ * xOne p0 * Real.sqrt _ * zeroT p0 = 0
    rw [show zeroT p0 = 0 from rfl, mul_zero]
  · rw [specAdditiveNoisy]
    show Real.sqrt ((schedIdx D2.alpha_hat (1 : ℤ) : ℝ)) * xOne p0 +
      Real.sqrt (1 - (schedIdx D2.alpha_hat (1 : ℤ) : ℝ)) * zeroT p0 ≠ 0
    rw [hval, show zeroT p0 = 0 from rfl, show xOne p0 = 1 from rfl, mul_zero, add_zero,
      mul_one]
    have h38 : (((3 : ℚ)/8 : ℚ) : ℝ) = 3/8 := by norm_num
    rw [h38]
    exact ne_of_gt (Real.sqrt_pos.mpr (by norm_num))

/-- C2: the loop body of `sample` at counter `i ∈ [1, stepCount)` updates the
state to `1/sqrt(alpha[i]) * (x - (1 - alpha[i])/sqrt(1 - alphaHat[i]) *
predictedNoise) + sqrt(beta[i]) * z`, where `predictedNoise` is the
predictor's output on `(x, i)` and `z` is the fresh standard-normal draw when
`i > 1` and the all-zero tensor when `i = 1` (the per-image broadcast
coefficients collapse to the scalar schedule entries at `i`). -/
theorem sampleStep_update_formula (D : Diffusion) {n : Nat} (M : Model n D.img_size)
    (zs : Nat → Tensor n D.img_size) (x : Tensor n D.img_size) (i : Nat)
    (h1 : 1 ≤ i) (h2 : i < D.noise_steps) :
    sampleStep D M zs x i = fun p =>
      1 / Real.sqrt ((alphaAt D i : ℝ)) *
        (x p - (1 - (alphaAt D i : ℝ)) / Real.sqrt (1 - (alphaHatAt D i : ℝ)) *
          M.predict x (tvec n i) p) +
      Real.sqrt ((betaAt D i : ℝ)) * (if i = 1 then 0 else zs i p) := by
  funext p
  have ha : schedIdx D.alpha (tvec n i p.1) = alphaAt D i := schedIdx_natCast D.alpha i
  have hh : schedIdx D.alpha_hat (tvec n i p.1) = alphaHatAt D i := schedIdx_natCast D.alpha_hat i
  have hb : schedIdx D.beta (tvec n i p.1) = betaAt D i := schedIdx_natCast D.beta i
  have hif : (if 1 < i then zs i p else 0) = (if i = 1 then 0 else zs i p) := by
    rcases Nat.lt_or_ge 1 i with hlt | hge
    · rw [if_pos hlt, if_neg (by omega)]
    · have : i = 1 := by omega
      rw [this]
      simp
  show 1 / Real.sqrt ((schedIdx D.alpha (tvec n i p.1) : ℝ)) *
      (x p - (1 - (schedIdx D.alpha (tvec n i p.1) : ℝ)) /
        Real.sqrt (1 - (schedIdx D.alpha_hat (tvec n i p.1) : ℝ)) *
        M.predict x (tvec n i) p) +
    Real.sqrt ((schedIdx D.beta (tvec n i p.1) : ℝ)) * (if 1 < i then zs i p else 0) = _
  rw [ha, hh, hb, hif]

/-- Witness for C2 on the 3-step schedule `D3` at counter `i = 2` with the
zero predictor, zero noise streams and the all-one state. -/
theorem sampleStep_update_formula_witness :
    1 ≤ 2 ∧ 2 < D3.noise_steps ∧
    (sampleStep D3 Mzero zsZero xOne 2 = fun p =>
      1 / Real.sqrt ((alphaAt D3 2 : ℝ)) *
        (xOne p - (1 - (alphaAt D3 2 : ℝ)) / Real.sqrt (1 - (alphaHatAt D3 2 : ℝ)) *
          Mzero.predict xOne (tvec 1 2) p) +
      Real.sqrt ((betaAt D3 2 : ℝ)) * (if 2 = 1 then 0 else zsZero 2 p)) :=
  ⟨by decide, by decide,
    sampleStep_update_formula D3 Mzero zsZero xOne 2 (by decide) (by decide)⟩

section TraceLemmas

lemma sampleLoop_calls (D : Diffusion) {n : Nat} (M : Model n D.img_size)
    (zs : Nat → Tensor n D.img_size) (L : List Nat) (x : Tensor n D.img_size)
    (cs : List (Fin n → ℤ)) :
    (sampleLoop D M zs L (x, cs)).2 = cs ++ L.map (tvec n) := by
  induction L generalizing x cs with
  | nil => simp [sampleLoop]
  | cons i is ih =>
    rw [sampleLoop, ih]
    simp

lemma revRange_length (T : Nat) : (revRange T).length = T - 1 := by
  rw [revRange, List.length_reverse, List.length_range']

lemma revRange_getElem (T k : Nat) (hk : k < T - 1) :
    (revRange T)[k]? = some (T - 1 - k) := by
  rw [revRange, List.reverse_range', List.getElem?_map, List.getElem?_range hk,
    Option.map_some']
  simp only [Option.some.injEq]
  omega

end TraceLemmas

/-- C3: one call to `sample` invokes the predictor once per entry of
`reversed(range(1, stepCount))` — exactly `stepCount - 1` times — and the
`k`-th call's timestep batch is `n` copies of `stepCount - 1 - k`: the
counters strictly decrease from `stepCount - 1` down to `1`. -/
theorem sample_predictor_call_trace (D : Diffusion) {n : Nat} (M : Model n D.img_size)
    (zs : Nat → Tensor n D.img_size) (x0 : Tensor n D.img_size) :
    sampleCalls D M zs x0 = (revRange D.noise_steps).map (tvec n) ∧
    (sampleCalls D M zs x0).length = D.noise_steps - 1 ∧
    (∀ k, k < D.noise_steps - 1 →
      (sampleCalls D M zs x0)[k]? = some (tvec n (D.noise_steps - 1 - k))) := by
  have hc : sampleCalls D M zs x0 = (revRange D.noise_steps).map (tvec n) := by
    rw [sampleCalls, sampleLoop_calls]
    simp
  refine ⟨hc, ?_, ?_⟩
  · rw [hc, List.length_map, revRange_length]
  · intro k hk
    rw [hc, List.getElem?_map, revRange_getElem _ _ hk, Option.map_some']

section PostprocessLemmas

lemma clamp_le_one (v : ℝ) : clamp (-1) 1 v ≤ 1 :=
  max_le (by norm_num) (min_le_right _ _)

lemma neg_one_le_clamp (v : ℝ) : -1 ≤ clamp (-1) 1 v := le_max_left _ _

lemma scaled_nonneg (v : ℝ) : 0 ≤ (clamp (-1) 1 v + 1) / 2 * 255 := by
  have h := neg_one_le_clamp v
  have h0 : (0 : ℝ) ≤ clamp (-1) 1 v + 1 := by linarith
  have h1 : (0 : ℝ) ≤ (clamp (-1) 1 v + 1) / 2 := div_nonneg h0 (by norm_num)
  exact mul_nonneg h1 (by norm_num)

lemma scaled_le_255 (v : ℝ) : (clamp (-1) 1 v + 1) / 2 * 255 ≤ 255 := by
  have h := clamp_le_one v
  nlinarith

lemma postprocess_eq_floor {n s : Nat} (x : Tensor n s) (p : Ix n s) :
    postprocess x p = ⌊(clamp (-1) 1 (x p) + 1) / 2 * 255⌋ := by
  rw [postprocess, truncToZero, if_pos (scaled_nonneg (x p))]

lemma sampleRaw_D2_zero : sampleRaw D2 Mzero zsZero zeroT = zeroT := by
  rw [sampleRaw, show revRange D2.noise_steps = [1] from rfl, sampleLoop, sampleLoop]
  show sampleStep D2 Mzero zsZero zeroT 1 = zeroT
  funext p
  show 1 / Real.sqrt _ * (zeroT p - _ / Real.sqrt _ * Mzero.predict zeroT (tvec 1 1) p) +
    Real.sqrt _ * (if 1 < 1 then zsZero 1 p else 0) = zeroT p
  rw [show zeroT p = 0 from rfl, show Mzero.predict zeroT (tvec 1 1) p = 0 from rfl,
    if_neg (by omega)]
  ring

end PostprocessLemmas

/-- C6 counterexample: with the zero predictor and all-zero noise draws on the
2-step schedule `D2`, the final loop state is the zero tensor, so the scaled
value is `(0+1)/2*255 = 127.5`; the uint8 cast of `sample` truncates it to
`127`, while the claim's `round(x * 255)` post-processing gives `128`. -/
theorem sample_truncates_not_rounds :
    (D2.sample Mzero zsZero zeroT).1 p0 = 127 ∧
    specRoundPost (sampleRaw D2 Mzero zsZero zeroT) p0 = 128 := by
  have hz := sampleRaw_D2_zero
  have hval : (clamp (-1) 1 (0 : ℝ) + 1) / 2 * 255 = 255 / 2 := by
    rw [clamp]
    norm_num
  constructor
  · show postprocess (sampleRaw D2 Mzero zsZero zeroT) p0 = 127
    rw [hz, postprocess_eq_floor, show zeroT p0 = 0 from rfl, hval]
    rw [Int.floor_eq_iff]
    constructor <;> norm_num
  · rw [specRoundPost]
    show round ((clamp (-1) 1 (sampleRaw D2 Mzero zsZero zeroT p0) + 1) / 2 * 255) = 128
    rw [show sampleRaw D2 Mzero zsZero zeroT p0 = 0 from congrFun hz p0, hval, round_eq]
    rw [show (255 : ℝ) / 2 + 1 / 2 = 128 by norm_num]
    rw [show ((128 : ℝ)) = ((128 : ℤ) : ℝ) by norm_num, Int.floor_intCast]

/-- C6 amended: after the reverse loop, `sample` clamps every pixel to
`[-1, 1]`, rescales to `[0, 1]` via `(x+1)/2`, multiplies by 255 and
*truncates* to an integer (the uint8 cast, equal to the floor since every
scaled value is nonnegative); consequently, for any predictor and any noise
draws, every pixel of the returned batch is an integer in `[0, 255]`. -/
theorem sample_postprocess_floor_and_range (D : Diffusion) {n : Nat}
    (M : Model n D.img_size) (zs : Nat → Tensor n D.img_size)
    (x0 : Tensor n D.img_size) (p : Ix n D.img_size) :
    (D.sample M zs x0).1 p = ⌊(clamp (-1) 1 (sampleRaw D M zs x0 p) + 1) / 2 * 255⌋ ∧
    0 ≤ (D.sample M zs x0).1 p ∧ (D.sample M zs x0).1 p ≤ 255 := by
  have hfl : (D.sample M zs x0).1 p =
      ⌊(clamp (-1) 1 (sampleRaw D M zs x0 p) + 1) / 2 * 255⌋ :=
    postprocess_eq_floor (sampleRaw D M zs x0) p
  refine ⟨hfl, ?_, ?_⟩
  · rw [hfl]
    exact Int.floor_nonneg.mpr (scaled_nonneg _)
  · rw [hfl]
    calc ⌊(clamp (-1) 1 (sampleRaw D M zs x0 p) + 1) / 2 * 255⌋
        ≤ ⌊(255 : ℝ)⌋ := Int.floor_le_floor (scaled_le_255 _)
      _ = 255 := by
          rw [show ((255 : ℝ)) = ((255 : ℤ) : ℝ) by norm_num, Int.floor_intCast]

/-- C9 counterexample: a predictor entering `sample` in evaluation mode is
returned in training mode — `sample` itself calls `model.eval()` on entry and
`model.train()` on exit, contrary to the claim that the mode toggle is
performed only by the caller, outside `sample`. -/
theorem sample_switches_predictor_mode :
    Meval.mode = Mode.eval ∧ (D2.sample Meval zsZero zeroT).2.2.mode = Mode.train :=
  ⟨rfl, rfl⟩

/-- C9 amended: `sample` leaves the diffusion object — the schedule and every
other field — unchanged and does not alter the predictor's function, but it
does switch the predictor's mode itself (`model.eval()` on entry,
`model.train()` on exit), so the predictor always comes back in training
mode. -/
theorem sample_frame_and_mode (D : Diffusion) {n : Nat} (M : Model n D.img_size)
    (zs : Nat → Tensor n D.img_size) (x0 : Tensor n D.img_size) :
    (D.sample M zs x0).2.1 = D ∧
    (D.sample M zs x0).2.2.predict = M.predict ∧
    (D.sample M zs x0).2.2.mode = Mode.train :=
  ⟨rfl, rfl, rfl⟩

end DDPM
